import Mathlib

/-!
Verification of the XML-to-CSV payroll converter (`src/main.rs`).

The development shallowly embeds the conversion pipeline of the program:

* numeric coercion (`valor.parse::<f64>().unwrap_or(0.0)`), modelled with
  exact rationals (`Rat`) in place of IEEE doubles — the claims under test
  are structural (which strings parse, what an unparsable string
  contributes), not about rounding;
* the document model (`Funcionario`, `Empresa`, `Comissao`, `Vales`);
* the XML deserialization performed by `serde_xml_rs::from_reader`, modelled
  over a simple element tree.  Two behaviours of that library matter here
  and are reflected faithfully: a missing required (non-`Option`) field is a
  parse error, and the root element's *name* is never compared against the
  target struct, so any root whose children satisfy the field layout is
  accepted;
* the filename classifier (`stem.split('_').next()`);
* the two row-flattening/aggregating handlers
  (`handle_arquivo_comissao`, `handle_arquivo_vales`), embedded as the same
  left-to-right loop over employees with running accumulators;
* the CSV writer (csv crate, delimiter `b';'`, `QuoteStyle::Necessary`,
  record terminator `\n`): a field containing the delimiter, a double
  quote, CR or LF is wrapped in double quotes with inner quotes doubled;
* a CSV reader used only by the round-trip property.  The program never
  re-reads its output, so this reader is modelled from the spec: standard
  semicolon-delimited CSV with standard double-quote escaping.

File-system effects are reflected in the `Outcome` type: the destination
file exists exactly in the `Outcome.written` case, mirroring that
`File::create` is reached only on that control path.
-/

/-! ## Numeric coercion

Rust's `str::parse::<f64>` accepts an optional sign, a decimal significand
(`123`, `123.`, `123.45`, `.45`) and an optional exponent (`e`/`E`, optional
sign, digits), over ASCII digits only.  The model returns the exact rational
value; the special forms `inf`/`infinity`/`NaN`, which denote no rational,
are outside the model and treated as unparsable (no claim touches them). -/

/-- Numeral value of a run of ASCII digits, most significant first. -/
def digitsVal (ds : List Char) : Nat :=
  ds.foldl (fun a c => 10 * a + (c.toNat - 48)) 0

/-- Decimal parse of a character list, following the grammar of Rust's
`str::parse::<f64>` (sign, significand with optional point, optional
exponent), with the exact rational as result.  A significand `ip.fp` with
`fl` fraction digits and exponent `ex` denotes
`sign * (ip * 10 ^ fl + fp) * 10 ^ ex / 10 ^ fl`; the value is built with
`mkRat` over plain integer arithmetic. -/
def parseF64Chars (cs : List Char) : Option Rat :=
  let signAndRest : Int × List Char :=
    match cs with
    | '+' :: r => (1, r)
    | '-' :: r => (-1, r)
    | r => (1, r)
  let sign := signAndRest.1
  let afterSign := signAndRest.2
  let intPart := afterSign.takeWhile Char.isDigit
  let afterInt := afterSign.dropWhile Char.isDigit
  let fracAndRest : Option (List Char) × List Char :=
    match afterInt with
    | '.' :: r => (some (r.takeWhile Char.isDigit), r.dropWhile Char.isDigit)
    | r => (none, r)
  let fracPart := fracAndRest.1
  let afterFrac := fracAndRest.2
  if intPart.isEmpty && (fracPart.getD []).isEmpty then none
  else
    let ip := digitsVal intPart
    let fp := digitsVal (fracPart.getD [])
    let fl := (fracPart.getD []).length
    match afterFrac with
    | [] => some (mkRat (sign * Int.ofNat (ip * 10 ^ fl + fp)) (10 ^ fl))
    | e :: r =>
      if e = 'e' ∨ e = 'E' then
        let expSignAndRest : Bool × List Char :=
          match r with
          | '+' :: r2 => (true, r2)
          | '-' :: r2 => (false, r2)
          | r2 => (true, r2)
        let expDigits := expSignAndRest.2.takeWhile Char.isDigit
        let afterExp := expSignAndRest.2.dropWhile Char.isDigit
        if expDigits.isEmpty ∨ ¬ afterExp.isEmpty then none
        else
          let ex := digitsVal expDigits
          some (if expSignAndRest.1 then
                  mkRat (sign * Int.ofNat ((ip * 10 ^ fl + fp) * 10 ^ ex)) (10 ^ fl)
                else
                  mkRat (sign * Int.ofNat (ip * 10 ^ fl + fp)) (10 ^ fl * 10 ^ ex))
      else none

/-- Decimal parse of a string (`s.parse::<f64>()`), `none` on failure. -/
def parseF64 (s : String) : Option Rat :=
  parseF64Chars s.data

/-- The program's numeric coercion of one raw string:
`s.parse::<f64>().unwrap_or(0.0)`. -/
def coerceStr (s : String) : Rat :=
  (parseF64 s).getD 0

/-- Coercion of a possibly absent raw string.  The source resolves an absent
`MetaPremio` to `""` first (lines 147–151) and then parses, so absence flows
through the empty string. -/
def coerce (o : Option String) : Rat :=
  coerceStr (o.getD "")

/-! ## Document model (`Funcionario`, `Empresa`, variant wrappers) -/

/-- One `<Funcionario>` record: required `CPF` and `Valor`, optional
`MetaPremio`. -/
structure Funcionario where
  cpf : String
  valor : String
  meta_premio : Option String
deriving DecidableEq

/-- One `<Empresa>` record: four required text fields and an optional list of
employees (`Option<Vec<Funcionario>>` in the source). -/
structure Empresa where
  fantasia : String
  razao : String
  cnpj : String
  mes_ano : String
  funcionarios : Option (List Funcionario)
deriving DecidableEq

/-- Wrapper deserialized for `comissao_*` files. -/
structure Comissao where
  empresa : Empresa
deriving DecidableEq

/-- Wrapper deserialized for `vales_*` files. -/
structure Vales where
  empresa : Empresa
deriving DecidableEq

/-! ## XML deserialization model

An XML document is a tree of named elements; each element carries its text
content and its child elements.  `serde_xml_rs` maps child elements to
struct fields by name: a missing non-`Option` field is a deserialization
error, a missing `Option` field is `none`, and repeated children named
`Funcionario` collect into the vector.  The root element's name is not
compared against the target struct's name. -/

/-- A simplified XML element: tag name, text content, child elements. -/
inductive XmlElem where
  | node : String → String → List XmlElem → XmlElem

/-- Tag name of an element. -/
def XmlElem.name : XmlElem → String
  | .node n _ _ => n

/-- Text content of an element. -/
def XmlElem.text : XmlElem → String
  | .node _ t _ => t

/-- Child elements of an element. -/
def XmlElem.children : XmlElem → List XmlElem
  | .node _ _ c => c

/-- First child element with the given tag name. -/
def findChild (e : XmlElem) (n : String) : Option XmlElem :=
  e.children.find? (fun c => c.name == n)

/-- Text content of the first child with the given tag name, `none` when no
such child exists (a missing field). -/
def childText (e : XmlElem) (n : String) : Option String :=
  (findChild e n).map XmlElem.text

/-- All children named `Funcionario`, in document order. -/
def funcionarioChildren (e : XmlElem) : List XmlElem :=
  e.children.filter (fun c => c.name == "Funcionario")

/-- Deserialize one `<Funcionario>`: `CPF` and `Valor` are required,
`MetaPremio` defaults to `none` when absent. -/
def parseFuncionario (e : XmlElem) : Option Funcionario :=
  match childText e "CPF", childText e "Valor" with
  | some cpf, some valor => some ⟨cpf, valor, childText e "MetaPremio"⟩
  | _, _ => none

/-- Deserialize a list of `<Funcionario>` children; any failing element fails
the whole document. -/
def parseFuncList : List XmlElem → Option (List Funcionario)
  | [] => some []
  | f :: fs =>
    (parseFuncionario f).bind fun g => (parseFuncList fs).map fun gs => g :: gs

/-- Deserialize an `<Empresa>` element: `Fantasia`, `Razao`, `CNPJ`, `MesAno`
are required; the employee vector is `none` exactly when no `Funcionario`
child is present (an `Option<Vec<_>>` field with no occurrence). -/
def parseEmpresa (e : XmlElem) : Option Empresa :=
  match childText e "Fantasia", childText e "Razao",
        childText e "CNPJ", childText e "MesAno" with
  | some fantasia, some razao, some cnpj, some mes_ano =>
    match funcionarioChildren e with
    | [] => some ⟨fantasia, razao, cnpj, mes_ano, none⟩
    | f :: fs =>
      match parseFuncList (f :: fs) with
      | some gs => some ⟨fantasia, razao, cnpj, mes_ano, some gs⟩
      | none => none
  | _, _, _, _ => none

/-- Deserialize a whole document as `Comissao`
(`serde_xml_rs::from_reader::<Comissao>`): the root must carry an `Empresa`
child; the root's own tag name is not checked by the library. -/
def parseComissao (root : XmlElem) : Option Comissao :=
  match findChild root "Empresa" with
  | none => none
  | some e => (parseEmpresa e).map Comissao.mk

/-- Deserialize a whole document as `Vales`
(`serde_xml_rs::from_reader::<Vales>`): same field layout as `Comissao`;
the root's own tag name is not checked by the library. -/
def parseVales (root : XmlElem) : Option Vales :=
  match findChild root "Empresa" with
  | none => none
  | some e => (parseEmpresa e).map Vales.mk

/-! ## Schema classifier (`main.rs` lines 89–99) -/

/-- The two supported schema variants. -/
inductive TipoArquivoTag where
  | comissao
  | vales
deriving DecidableEq

/-- Rust's `str::split(sep)` on a character list: `n` separators yield
`n + 1` pieces, the empty input yields one empty piece. -/
def rustSplit (sep : Char) : List Char → List (List Char)
  | [] => [[]]
  | c :: cs =>
    if c = sep then [] :: rustSplit sep cs
    else
      match rustSplit sep cs with
      | [] => [[c]]
      | p :: ps => (c :: p) :: ps

/-- Classification of a filename stem, embedding
`selected_file_stem.split('_').next()` matched against the two literals
(lines 89–99). -/
def classify (stem : String) : Option TipoArquivoTag :=
  match (rustSplit '_' stem.data).head? with
  | some p =>
    if p = "comissao".data then some TipoArquivoTag.comissao
    else if p = "vales".data then some TipoArquivoTag.vales
    else none
  | none => none

/-- Classification as worded by the spec (§4.2): the candidate is the part of
the stem before the first underscore — the whole stem when there is no
underscore — compared case-sensitively against the two literals. -/
def classifySpec (stem : String) : Option TipoArquivoTag :=
  let cand := stem.data.takeWhile (fun c => !(c == '_'))
  if cand = "comissao".data then some TipoArquivoTag.comissao
  else if cand = "vales".data then some TipoArquivoTag.vales
  else none

/-! ## Row flattening and aggregation (`handle_arquivo_comissao`,
`handle_arquivo_vales`, lines 120–225)

Each handler first checks for employees (`None` prints the no-data notice
and returns without creating a file), then creates the CSV file, writes the
header, and loops over employees accumulating the totals and the counter
while writing one row per employee.  The loop is embedded as a left fold
over the employee list with the same accumulator state. -/

/-- Column headers of a commission CSV (line 143). -/
def comissaoHeader : List String :=
  ["Fantasia", "Razao", "CNPJ", "MesAno", "CPF", "Valor", "MetaPremio"]

/-- Column headers of a vale CSV (line 194). -/
def valesHeader : List String :=
  ["Fantasia", "Razao", "CNPJ", "MesAno", "CPF", "Valor"]

/-- The record written for one employee of a commission file (lines
157–165): company fields repeated verbatim, then `CPF`, the raw `Valor`
text, and `MetaPremio` resolved to `""` when absent. -/
def comissaoRow (empresa : Empresa) (f : Funcionario) : List String :=
  [empresa.fantasia, empresa.razao, empresa.cnpj, empresa.mes_ano,
   f.cpf, f.valor, f.meta_premio.getD ""]

/-- The record written for one employee of a vale file (lines 210–217). -/
def valesRow (empresa : Empresa) (f : Funcionario) : List String :=
  [empresa.fantasia, empresa.razao, empresa.cnpj, empresa.mes_ano,
   f.cpf, f.valor]

/-- Loop state of the commission handler: rows written so far and the three
running aggregates (lines 138–140). -/
structure ComissaoAcc where
  rows : List (List String)
  total_comissao : Rat
  total_meta : Rat
  quantidade : Nat
deriving DecidableEq

/-- One iteration of the commission loop (lines 146–166). -/
def comissaoStep (empresa : Empresa) (acc : ComissaoAcc) (f : Funcionario) : ComissaoAcc :=
  let meta_premio := f.meta_premio.getD ""
  { rows := acc.rows ++ [comissaoRow empresa f]
    total_comissao := acc.total_comissao + coerceStr f.valor
    total_meta := acc.total_meta + coerceStr meta_premio
    quantidade := acc.quantidade + 1 }

/-- Result of a successful commission conversion: the full record list as
written (header first), and the reported summary values (line 170). -/
structure ComissaoResult where
  records : List (List String)
  quantidade : Nat
  total_comissao : Rat
  total_meta : Rat
deriving DecidableEq

/-- The commission handler (lines 120–173).  `none` is the `None =>` branch:
the no-data notice is printed and no file is created. -/
def handle_arquivo_comissao (empresa : Empresa) : Option ComissaoResult :=
  match empresa.funcionarios with
  | none => none
  | some funcionarios =>
    let final := funcionarios.foldl (comissaoStep empresa) ⟨[], 0, 0, 0⟩
    some ⟨comissaoHeader :: final.rows, final.quantidade,
          final.total_comissao, final.total_meta⟩

/-- Loop state of the vale handler (lines 196–197).  The source also binds
the resolved `meta_premio` inside this loop (lines 201–205) but never uses
it, so it does not appear in the state. -/
structure ValesAcc where
  rows : List (List String)
  total_vales : Rat
  quantidade : Nat
deriving DecidableEq

/-- One iteration of the vale loop (lines 200–218). -/
def valesStep (empresa : Empresa) (acc : ValesAcc) (f : Funcionario) : ValesAcc :=
  { rows := acc.rows ++ [valesRow empresa f]
    total_vales := acc.total_vales + coerceStr f.valor
    quantidade := acc.quantidade + 1 }

/-- Result of a successful vale conversion. -/
structure ValesResult where
  records : List (List String)
  quantidade : Nat
  total_vales : Rat
deriving DecidableEq

/-- The vale handler (lines 175–225).  `none` is the `None =>` branch: the
no-data notice is printed and no file is created. -/
def handle_arquivo_vales (empresa : Empresa) : Option ValesResult :=
  match empresa.funcionarios with
  | none => none
  | some funcionarios =>
    let final := funcionarios.foldl (valesStep empresa) ⟨[], 0, 0⟩
    some ⟨valesHeader :: final.rows, final.quantidade, final.total_vales⟩

/-! ## CSV writer model

The csv crate with `delimiter(b';')` and its defaults: quote style
`Necessary` (a field is quoted when it contains the delimiter, a double
quote, CR or LF, doubling inner quotes) and record terminator `\n`.
Records of this program always have 6 or 7 fields, so the writer's special
case for a lone-field record never arises. -/

/-- Whether a field must be quoted: it contains the delimiter, a double
quote, CR or LF. -/
def needsQuote (f : List Char) : Bool :=
  f.any (fun c => c == ';' || c == '"' || c == '\n' || c == '\r')

/-- Double every inner double quote of a quoted field body. -/
def escapeQuotes : List Char → List Char
  | [] => []
  | c :: cs => (if c = '"' then ['"', '"'] else [c]) ++ escapeQuotes cs

/-- Encode one field, quoting only when necessary. -/
def encField (f : String) : List Char :=
  if needsQuote f.data then '"' :: (escapeQuotes f.data ++ ['"']) else f.data

/-- Encode one record: fields joined by `;`, terminated by `\n`. -/
def emitRecordChars : List String → List Char
  | [] => ['\n']
  | [f] => encField f ++ ['\n']
  | f :: g :: rs => encField f ++ ';' :: emitRecordChars (g :: rs)

/-- Encode a record list back to back. -/
def emitCsvChars : List (List String) → List Char
  | [] => []
  | r :: rs => emitRecordChars r ++ emitCsvChars rs

/-- The text of the emitted CSV file. -/
def emitCsvString (rs : List (List String)) : String :=
  String.mk (emitCsvChars rs)

/-! ## CSV reader model

Modelled from the spec: the program never re-reads its output; the spec's
round-trip property (§8) re-parses the emitted CSV, so a standard
semicolon-delimited CSV reader with standard double-quote escaping is
modelled here.  Recursions are fuelled; one unit of fuel per field or
record, with the input length as an always-sufficient budget. -/

/-- Read the body of a quoted field after the opening quote: `""` is a
literal quote, a lone closing quote ends the field. -/
def parseQuotedTail : List Char → List Char → Option (List Char × List Char)
  | _, [] => none
  | acc, c :: rest =>
    if c = '"' then
      match rest with
      | [] => some (acc, [])
      | r :: rest2 =>
        if r = '"' then parseQuotedTail (acc ++ ['"']) rest2
        else some (acc, r :: rest2)
    else parseQuotedTail (acc ++ [c]) rest
termination_by _ cs => cs.length
decreasing_by
  all_goals simp [List.length_cons]
  omega

/-- Read one field; an unquoted field extends to the next separator or
record end.  Returns the field and the rest, which begins at the separator.
-/
def parseField (cs : List Char) : Option (List Char × List Char) :=
  match cs with
  | [] => some ([], [])
  | c :: rest =>
    if c = '"' then parseQuotedTail [] rest
    else some (cs.takeWhile (fun d => !(d == ';' || d == '\n')),
               cs.dropWhile (fun d => !(d == ';' || d == '\n')))

/-- Read one record: fields separated by `;`, ended by `\n`. -/
def parseRecordF : Nat → List Char → Option (List String × List Char)
  | 0, _ => none
  | fuel + 1, cs =>
    match parseField cs with
    | none => none
    | some (f, rest) =>
      match rest with
      | [] => none
      | c :: rest2 =>
        if c = ';' then
          match parseRecordF fuel rest2 with
          | none => none
          | some (fs, rest3) => some (String.mk f :: fs, rest3)
        else if c = '\n' then some ([String.mk f], rest2)
        else none

/-- Read all records until the input is exhausted. -/
def parseCsvF : Nat → List Char → Option (List (List String))
  | _, [] => some []
  | 0, _ :: _ => none
  | fuel + 1, c :: cs =>
    match parseRecordF ((c :: cs).length + 1) (c :: cs) with
    | none => none
    | some (r, rest) =>
      match parseCsvF fuel rest with
      | none => none
      | some rs => some (r :: rs)

/-- Parse a CSV text into its records. -/
def parseCsv (s : String) : Option (List (List String)) :=
  parseCsvF s.data.length s.data

/-! ## Conversion orchestrator (`main`, lines 86–104)

The outcome of one conversion attempt.  `written` carries the created
destination file's content and the reported summary; in every other case no
destination file is created (the `File::create` of the handlers is reached
only on the path that ends in `written`). -/

/-- Outcome of converting one selected file. -/
inductive Outcome where
  | unsupported
  | parseError
  | noData
  | written : String → Nat → Rat → Option Rat → Outcome
deriving DecidableEq

/-- Whether an outcome created a destination file. -/
def Outcome.isWritten : Outcome → Bool
  | .written _ _ _ _ => true
  | _ => false

/-- The conversion pipeline of `main` for one selected file, given its
filename stem and its parsed XML byte content: classify by stem, parse the
matching variant, hand over to the variant's handler.  The secondary total
is reported only for commissions. -/
def convert (stem : String) (xml : XmlElem) : Outcome :=
  match classify stem with
  | none => Outcome.unsupported
  | some TipoArquivoTag.comissao =>
    match parseComissao xml with
    | none => Outcome.parseError
    | some com =>
      match handle_arquivo_comissao com.empresa with
      | none => Outcome.noData
      | some res =>
        Outcome.written (emitCsvString res.records) res.quantidade
          res.total_comissao (some res.total_meta)
  | some TipoArquivoTag.vales =>
    match parseVales xml with
    | none => Outcome.parseError
    | some v =>
      match handle_arquivo_vales v.empresa with
      | none => Outcome.noData
      | some res =>
        Outcome.written (emitCsvString res.records) res.quantidade
          res.total_vales none

/-- Per-variant document parse, returning the company payload. -/
def docParse : TipoArquivoTag → XmlElem → Option Empresa
  | TipoArquivoTag.comissao, xml => (parseComissao xml).map Comissao.empresa
  | TipoArquivoTag.vales, xml => (parseVales xml).map Vales.empresa

/-! ## Lemmas about the classifier -/

/-- `rustSplit` always yields at least one piece. -/
theorem rustSplit_ne_nil (sep : Char) (cs : List Char) : rustSplit sep cs ≠ [] := by
  induction cs with
  | nil => simp [rustSplit]
  | cons c cs ih =>
    by_cases h : c = sep
    · simp [rustSplit, h]
    · simp only [rustSplit, if_neg h]
      cases hsp : rustSplit sep cs with
      | nil => simp
      | cons p ps => simp

/-- The first piece of `rustSplit` is the run of the input before the first
separator. -/
theorem rustSplit_head (sep : Char) (cs : List Char) :
    (rustSplit sep cs).head? = some (cs.takeWhile (fun c => !(c == sep))) := by
  induction cs with
  | nil => simp [rustSplit]
  | cons c cs ih =>
    by_cases h : c = sep
    · simp [rustSplit, h, List.takeWhile_cons]
    · simp only [rustSplit, if_neg h]
      cases hsp : rustSplit sep cs with
      | nil => exact absurd hsp (rustSplit_ne_nil sep cs)
      | cons p ps =>
        rw [hsp] at ih
        simp only [List.head?_cons, Option.some.injEq] at ih
        simp [List.takeWhile_cons, beq_iff_eq, h, ih]

/-- `takeWhile` keeps nothing when the head is the separator. -/
theorem takeWhile_sep_self (sep : Char) (cs : List Char) :
    (sep :: cs).takeWhile (fun c => !(c == sep)) = [] := by
  simp [List.takeWhile_cons]

/-- `takeWhile` keeps a head that is not the separator. -/
theorem takeWhile_sep_ne (sep c : Char) (h : c ≠ sep) (cs : List Char) :
    (c :: cs).takeWhile (fun c => !(c == sep)) =
      c :: cs.takeWhile (fun c => !(c == sep)) := by
  simp [List.takeWhile_cons, h]

/-- Characterization of `takeWhile (≠ sep)` hitting a given separator-free
target: the input is the target itself or the target followed by the
separator. -/
theorem takeWhile_eq_iff (sep : Char) (p : List Char) (hp : ∀ c ∈ p, c ≠ sep) :
    ∀ cs : List Char,
      (cs.takeWhile (fun c => !(c == sep)) = p ↔ cs = p ∨ p ++ [sep] <+: cs) := by
  induction p with
  | nil =>
    intro cs
    cases cs with
    | nil => simp
    | cons c cs' =>
      by_cases h : c = sep
      · subst h
        rw [takeWhile_sep_self]
        exact ⟨fun _ => Or.inr ⟨cs', rfl⟩, fun _ => rfl⟩
      · rw [takeWhile_sep_ne sep c h]
        constructor
        · intro hh; exact absurd hh (List.cons_ne_nil _ _)
        · rintro (hh | hh)
          · exact absurd hh (List.cons_ne_nil _ _)
          · obtain ⟨hsc, -⟩ := List.cons_prefix_cons.mp hh
            exact absurd hsc.symm h
  | cons a p' ih =>
    intro cs
    have ha : a ≠ sep := hp a (List.mem_cons_self a p')
    have hp' : ∀ c ∈ p', c ≠ sep := fun c hc => hp c (List.mem_cons_of_mem a hc)
    cases cs with
    | nil =>
      simp only [List.takeWhile_nil]
      constructor
      · intro hh; exact absurd hh.symm (List.cons_ne_nil _ _)
      · rintro (hh | hh)
        · exact absurd hh.symm (List.cons_ne_nil _ _)
        · have h0 := List.prefix_nil.mp hh
          simp at h0
    | cons c cs' =>
      by_cases h : c = sep
      · subst h
        rw [takeWhile_sep_self]
        constructor
        · intro hh; exact absurd hh.symm (List.cons_ne_nil _ _)
        · rintro (hh | hh)
          · obtain ⟨hca, -⟩ := List.cons.inj hh
            exact absurd hca.symm ha
          · rw [List.cons_append] at hh
            obtain ⟨hca, -⟩ := List.cons_prefix_cons.mp hh
            exact absurd hca ha
      · rw [takeWhile_sep_ne sep c h, List.cons_append, List.cons_prefix_cons]
        constructor
        · intro hh
          obtain ⟨hca, htw⟩ := List.cons.inj hh
          rcases (ih hp' cs').mp htw with h1 | h1
          · exact Or.inl (by rw [hca, h1])
          · exact Or.inr ⟨hca.symm, h1⟩
        · rintro (hh | ⟨hac, hpre⟩)
          · obtain ⟨hca, hcs⟩ := List.cons.inj hh
            rw [hca, (ih hp' cs').mpr (Or.inl hcs)]
          · rw [← hac, (ih hp' cs').mpr (Or.inr hpre)]

/-- The classifier accepts a stem exactly when its pre-underscore candidate
is one of the two literals; spelled out, the stem is the bare literal or the
literal followed by an underscore. -/
theorem classify_isSome_iff (stem : String) :
    (classify stem).isSome = true ↔
      stem = "comissao" ∨ stem = "vales" ∨
      "comissao_".data <+: stem.data ∨ "vales_".data <+: stem.data := by
  have hhead := rustSplit_head '_' stem.data
  have hc : ∀ c ∈ "comissao".data, c ≠ '_' := by decide
  have hv : ∀ c ∈ "vales".data, c ≠ '_' := by decide
  have hc2 : "comissao_".data = "comissao".data ++ ['_'] := by decide
  have hv2 : "vales_".data = "vales".data ++ ['_'] := by decide
  have hstrc : stem = "comissao" ↔ stem.data = "comissao".data :=
    ⟨fun h => by rw [h], fun h => String.ext h⟩
  have hstrv : stem = "vales" ↔ stem.data = "vales".data :=
    ⟨fun h => by rw [h], fun h => String.ext h⟩
  have hciff := takeWhile_eq_iff '_' "comissao".data hc stem.data
  have hviff := takeWhile_eq_iff '_' "vales".data hv stem.data
  have hclass : (classify stem).isSome = true ↔
      (stem.data.takeWhile (fun c => !(c == '_')) = "comissao".data ∨
       stem.data.takeWhile (fun c => !(c == '_')) = "vales".data) := by
    unfold classify
    rw [hhead]
    by_cases h1 : stem.data.takeWhile (fun c => !(c == '_')) = "comissao".data
    · simp [h1]
    · by_cases h2 : stem.data.takeWhile (fun c => !(c == '_')) = "vales".data
      · simp [h1, h2]
      · simp [h1, h2]
  rw [hclass, hciff, hviff, hstrc, hstrv, hc2, hv2]
  constructor
  · rintro ((h | h) | (h | h))
    · exact Or.inl h
    · exact Or.inr (Or.inr (Or.inl h))
    · exact Or.inr (Or.inl h)
    · exact Or.inr (Or.inr (Or.inr h))
  · rintro (h | h | h | h)
    · exact Or.inl (Or.inl h)
    · exact Or.inr (Or.inl h)
    · exact Or.inl (Or.inr h)
    · exact Or.inr (Or.inr h)

/-! ## Lemmas about the XML parse -/

/-- A funcionario fails to parse exactly when a required field is absent. -/
theorem parseFuncionario_eq_none_iff (f : XmlElem) :
    parseFuncionario f = none ↔
      childText f "CPF" = none ∨ childText f "Valor" = none := by
  unfold parseFuncionario
  cases hc : childText f "CPF" <;> cases hv : childText f "Valor" <;> simp

/-- A parsed funcionario's bonus field is exactly the optional `MetaPremio`
text, absent when the element is missing. -/
theorem parseFuncionario_meta (f : XmlElem) (fn : Funcionario)
    (h : parseFuncionario f = some fn) :
    fn.meta_premio = childText f "MetaPremio" := by
  unfold parseFuncionario at h
  cases hc : childText f "CPF" with
  | none => rw [hc] at h; exact Option.noConfusion h
  | some cpf =>
    rw [hc] at h
    cases hv : childText f "Valor" with
    | none => rw [hv] at h; exact Option.noConfusion h
    | some v =>
      rw [hv] at h
      have h2 : (⟨cpf, v, childText f "MetaPremio"⟩ : Funcionario) = fn :=
        Option.some.inj h
      rw [← h2]

/-- A funcionario list fails to parse exactly when some element fails. -/
theorem parseFuncList_eq_none_iff (fs : List XmlElem) :
    parseFuncList fs = none ↔ ∃ f ∈ fs, parseFuncionario f = none := by
  induction fs with
  | nil => simp [parseFuncList]
  | cons f fs ih =>
    cases hf : parseFuncionario f with
    | none =>
      simp only [parseFuncList, hf, Option.none_bind]
      exact ⟨fun _ => ⟨f, List.mem_cons_self f fs, hf⟩, fun _ => trivial⟩
    | some g =>
      cases hfs : parseFuncList fs with
      | none =>
        simp only [parseFuncList, hf, Option.some_bind, hfs, Option.map_none']
        constructor
        · intro _
          obtain ⟨f', hf', hn⟩ := ih.mp hfs
          exact ⟨f', List.mem_cons_of_mem f hf', hn⟩
        · intro _; trivial
      | some gs =>
        simp only [parseFuncList, hf, Option.some_bind, hfs, Option.map_some']
        constructor
        · intro habs; exact Option.noConfusion habs
        · rintro ⟨f', hmem, hn⟩
          rcases List.mem_cons.mp hmem with rfl | hmem'
          · rw [hf] at hn; exact Option.noConfusion hn
          · have hnone : parseFuncList fs = none := ih.mpr ⟨f', hmem', hn⟩
            rw [hnone] at hfs; exact Option.noConfusion hfs

/-- A successfully parsed funcionario list has the same length as its source
list; in particular it is nonempty for a nonempty source. -/
theorem parseFuncList_length (fs : List XmlElem) (gs : List Funcionario)
    (h : parseFuncList fs = some gs) : gs.length = fs.length := by
  induction fs generalizing gs with
  | nil =>
    simp only [parseFuncList, Option.some.injEq] at h
    rw [← h]
    rfl
  | cons f fs ih =>
    simp only [parseFuncList] at h
    cases hf : parseFuncionario f with
    | none => rw [hf] at h; exact Option.noConfusion h
    | some g =>
      rw [hf] at h
      cases hfs : parseFuncList fs with
      | none => rw [hfs] at h; exact Option.noConfusion h
      | some gs' =>
        rw [hfs] at h
        have h2 : g :: gs' = gs := Option.some.inj h
        rw [← h2, List.length_cons, ih gs' hfs, List.length_cons]

/-- Unfolding of the empresa parse once the four required fields are
present. -/
theorem parseEmpresa_eq (e : XmlElem) (fant raz cn ma : String)
    (h1 : childText e "Fantasia" = some fant) (h2 : childText e "Razao" = some raz)
    (h3 : childText e "CNPJ" = some cn) (h4 : childText e "MesAno" = some ma) :
    parseEmpresa e =
      (match funcionarioChildren e with
       | [] => some ⟨fant, raz, cn, ma, none⟩
       | f :: fs =>
         match parseFuncList (f :: fs) with
         | some gs => some ⟨fant, raz, cn, ma, some gs⟩
         | none => none) := by
  unfold parseEmpresa
  rw [h1, h2, h3, h4]

/-- The empresa parse fails as soon as one of the four required fields is
absent. -/
theorem parseEmpresa_eq_none_of (e : XmlElem)
    (h : childText e "Fantasia" = none ∨ childText e "Razao" = none ∨
      childText e "CNPJ" = none ∨ childText e "MesAno" = none) :
    parseEmpresa e = none := by
  unfold parseEmpresa
  rcases h with h | h | h | h
  · rw [h]
  · rw [h]
    cases childText e "Fantasia" <;> rfl
  · rw [h]
    cases childText e "Fantasia" <;> cases childText e "Razao" <;> rfl
  · rw [h]
    cases childText e "Fantasia" <;> cases childText e "Razao" <;>
      cases childText e "CNPJ" <;> rfl

/-- Unfolding of the empresa parse when every required field is present and
no `Funcionario` child exists. -/
theorem parseEmpresa_eq_nil (e : XmlElem) (fant raz cn ma : String)
    (h1 : childText e "Fantasia" = some fant) (h2 : childText e "Razao" = some raz)
    (h3 : childText e "CNPJ" = some cn) (h4 : childText e "MesAno" = some ma)
    (hfc : funcionarioChildren e = []) :
    parseEmpresa e = some ⟨fant, raz, cn, ma, none⟩ := by
  unfold parseEmpresa
  rw [h1, h2, h3, h4, hfc]

/-- Unfolding of the empresa parse when every required field is present and
at least one `Funcionario` child exists. -/
theorem parseEmpresa_eq_cons (e : XmlElem) (fant raz cn ma : String)
    (f : XmlElem) (fs : List XmlElem)
    (h1 : childText e "Fantasia" = some fant) (h2 : childText e "Razao" = some raz)
    (h3 : childText e "CNPJ" = some cn) (h4 : childText e "MesAno" = some ma)
    (hfc : funcionarioChildren e = f :: fs) :
    parseEmpresa e =
      (match parseFuncList (f :: fs) with
       | some gs => some ⟨fant, raz, cn, ma, some gs⟩
       | none => none) := by
  unfold parseEmpresa
  rw [h1, h2, h3, h4, hfc]

/-- An empresa fails to parse exactly when one of its four required fields
is absent or some funcionario child lacks a required field. -/
theorem parseEmpresa_eq_none_iff (e : XmlElem) :
    parseEmpresa e = none ↔
      childText e "Fantasia" = none ∨ childText e "Razao" = none ∨
      childText e "CNPJ" = none ∨ childText e "MesAno" = none ∨
      ∃ f ∈ funcionarioChildren e,
        childText f "CPF" = none ∨ childText f "Valor" = none := by
  cases h1 : childText e "Fantasia" with
  | none =>
    exact ⟨fun _ => Or.inl rfl, fun _ => parseEmpresa_eq_none_of e (Or.inl h1)⟩
  | some fant =>
  cases h2 : childText e "Razao" with
  | none =>
    exact ⟨fun _ => Or.inr (Or.inl rfl),
      fun _ => parseEmpresa_eq_none_of e (Or.inr (Or.inl h2))⟩
  | some raz =>
  cases h3 : childText e "CNPJ" with
  | none =>
    exact ⟨fun _ => Or.inr (Or.inr (Or.inl rfl)),
      fun _ => parseEmpresa_eq_none_of e (Or.inr (Or.inr (Or.inl h3)))⟩
  | some cn =>
  cases h4 : childText e "MesAno" with
  | none =>
    exact ⟨fun _ => Or.inr (Or.inr (Or.inr (Or.inl rfl))),
      fun _ => parseEmpresa_eq_none_of e (Or.inr (Or.inr (Or.inr h4)))⟩
  | some ma =>
  cases hfc : funcionarioChildren e with
  | nil =>
    rw [parseEmpresa_eq_nil e fant raz cn ma h1 h2 h3 h4 hfc]
    constructor
    · intro habs; exact Option.noConfusion habs
    · rintro (hh | hh | hh | hh | ⟨f', hmem, -⟩)
      · exact Option.noConfusion hh
      · exact Option.noConfusion hh
      · exact Option.noConfusion hh
      · exact Option.noConfusion hh
      · exact absurd hmem (List.not_mem_nil f')
  | cons f fs =>
    rw [parseEmpresa_eq_cons e fant raz cn ma f fs h1 h2 h3 h4 hfc]
    cases hfl : parseFuncList (f :: fs) with
    | none =>
      constructor
      · intro _
        obtain ⟨f', hmem, hn⟩ := (parseFuncList_eq_none_iff (f :: fs)).mp hfl
        rw [parseFuncionario_eq_none_iff] at hn
        exact Or.inr (Or.inr (Or.inr (Or.inr ⟨f', hmem, hn⟩)))
      · intro _
        rfl
    | some gs =>
      constructor
      · intro habs
        exact Option.noConfusion habs
      · rintro (hh | hh | hh | hh | ⟨f', hmem, hn⟩)
        · exact Option.noConfusion hh
        · exact Option.noConfusion hh
        · exact Option.noConfusion hh
        · exact Option.noConfusion hh
        · have hn2 : parseFuncionario f' = none :=
            (parseFuncionario_eq_none_iff f').mpr hn
          have hnone : parseFuncList (f :: fs) = none :=
            (parseFuncList_eq_none_iff _).mpr ⟨f', hmem, hn2⟩
          rw [hnone] at hfl
          exact Option.noConfusion hfl

/-- A successfully parsed empresa records exactly the optional funcionario
list: `none` when the document has no `Funcionario` child, and the parsed
children otherwise — never an empty `some`. -/
theorem parseEmpresa_funcionarios (e : XmlElem) (emp : Empresa)
    (h : parseEmpresa e = some emp) :
    (funcionarioChildren e = [] ∧ emp.funcionarios = none) ∨
      (∃ gs, emp.funcionarios = some gs ∧
        parseFuncList (funcionarioChildren e) = some gs ∧ gs ≠ []) := by
  cases h1 : childText e "Fantasia" with
  | none =>
    rw [parseEmpresa_eq_none_of e (Or.inl h1)] at h
    exact Option.noConfusion h
  | some fant =>
  cases h2 : childText e "Razao" with
  | none =>
    rw [parseEmpresa_eq_none_of e (Or.inr (Or.inl h2))] at h
    exact Option.noConfusion h
  | some raz =>
  cases h3 : childText e "CNPJ" with
  | none =>
    rw [parseEmpresa_eq_none_of e (Or.inr (Or.inr (Or.inl h3)))] at h
    exact Option.noConfusion h
  | some cn =>
  cases h4 : childText e "MesAno" with
  | none =>
    rw [parseEmpresa_eq_none_of e (Or.inr (Or.inr (Or.inr h4)))] at h
    exact Option.noConfusion h
  | some ma =>
  cases hfc : funcionarioChildren e with
  | nil =>
    rw [parseEmpresa_eq_nil e fant raz cn ma h1 h2 h3 h4 hfc] at h
    have h2 := Option.some.inj h
    exact Or.inl ⟨rfl, by rw [← h2]⟩
  | cons f fs =>
    rw [parseEmpresa_eq_cons e fant raz cn ma f fs h1 h2 h3 h4 hfc] at h
    cases hfl : parseFuncList (f :: fs) with
    | none =>
      rw [hfl] at h
      exact Option.noConfusion h
    | some gs =>
      rw [hfl] at h
      have hinj := Option.some.inj h
      refine Or.inr ⟨gs, by rw [← hinj], rfl, ?_⟩
      intro hnil
      have hlen := parseFuncList_length (f :: fs) gs hfl
      rw [hnil] at hlen
      simp at hlen

/-- A parsed empresa never carries an empty-but-present employee list. -/
theorem parseEmpresa_no_empty_some (e : XmlElem) (emp : Empresa)
    (h : parseEmpresa e = some emp) : emp.funcionarios ≠ some [] := by
  rcases parseEmpresa_funcionarios e emp h with ⟨-, hnone⟩ | ⟨gs, hsome, -, hne⟩
  · rw [hnone]; exact fun hc => Option.noConfusion hc
  · rw [hsome]
    intro hc
    exact hne (Option.some.inj hc)

/-- Unfolding of a `Comissao` document parse. -/
theorem parseComissao_eq_some_iff (root : XmlElem) (com : Comissao) :
    parseComissao root = some com ↔
      ∃ e, findChild root "Empresa" = some e ∧ parseEmpresa e = some com.empresa := by
  unfold parseComissao
  cases hfind : findChild root "Empresa" with
  | none =>
    constructor
    · intro habs; exact Option.noConfusion habs
    · rintro ⟨e', he', -⟩; exact Option.noConfusion he'
  | some e =>
    constructor
    · intro hmap
      have hmap2 : Option.map Comissao.mk (parseEmpresa e) = some com := hmap
      cases hemp : parseEmpresa e with
      | none => rw [hemp] at hmap2; exact Option.noConfusion hmap2
      | some emp =>
        rw [hemp] at hmap2
        have hinj : Comissao.mk emp = com := Option.some.inj hmap2
        exact ⟨e, rfl, by rw [← hinj]; exact hemp⟩
    · rintro ⟨e', he', hemp⟩
      have hee : e = e' := Option.some.inj he'
      rw [← hee] at hemp
      show Option.map Comissao.mk (parseEmpresa e) = some com
      rw [hemp]
      cases com
      rfl

/-- Unfolding of a `Vales` document parse. -/
theorem parseVales_eq_some_iff (root : XmlElem) (v : Vales) :
    parseVales root = some v ↔
      ∃ e, findChild root "Empresa" = some e ∧ parseEmpresa e = some v.empresa := by
  unfold parseVales
  cases hfind : findChild root "Empresa" with
  | none =>
    constructor
    · intro habs; exact Option.noConfusion habs
    · rintro ⟨e', he', -⟩; exact Option.noConfusion he'
  | some e =>
    constructor
    · intro hmap
      have hmap2 : Option.map Vales.mk (parseEmpresa e) = some v := hmap
      cases hemp : parseEmpresa e with
      | none => rw [hemp] at hmap2; exact Option.noConfusion hmap2
      | some emp =>
        rw [hemp] at hmap2
        have hinj : Vales.mk emp = v := Option.some.inj hmap2
        exact ⟨e, rfl, by rw [← hinj]; exact hemp⟩
    · rintro ⟨e', he', hemp⟩
      have hee : e = e' := Option.some.inj he'
      rw [← hee] at hemp
      show Option.map Vales.mk (parseEmpresa e) = some v
      rw [hemp]
      cases v
      rfl

/-- The two deserializers accept exactly the same documents with the same
payload: the field layouts coincide and the root name is never examined. -/
theorem parseVales_of_parseComissao (root : XmlElem) (emp : Empresa)
    (h : parseComissao root = some ⟨emp⟩) : parseVales root = some ⟨emp⟩ := by
  rw [parseComissao_eq_some_iff] at h
  rw [parseVales_eq_some_iff]
  exact h

/-! ## Lemmas about the handlers -/

/-- Closed form of the commission loop: rows in document order, totals as
sums, counter as length. -/
theorem comissao_foldl (empresa : Empresa) (fs : List Funcionario) :
    ∀ acc : ComissaoAcc,
      fs.foldl (comissaoStep empresa) acc =
        ⟨acc.rows ++ fs.map (comissaoRow empresa),
         acc.total_comissao + (fs.map (fun f => coerceStr f.valor)).sum,
         acc.total_meta + (fs.map (fun f => coerceStr (f.meta_premio.getD ""))).sum,
         acc.quantidade + fs.length⟩ := by
  induction fs with
  | nil => intro acc; simp
  | cons f fs ih =>
    intro acc
    rw [List.foldl_cons, ih]
    simp [comissaoStep, List.length_cons]
    constructor
    · ring
    · constructor
      · ring
      · omega

/-- Closed form of the vale loop. -/
theorem vales_foldl (empresa : Empresa) (fs : List Funcionario) :
    ∀ acc : ValesAcc,
      fs.foldl (valesStep empresa) acc =
        ⟨acc.rows ++ fs.map (valesRow empresa),
         acc.total_vales + (fs.map (fun f => coerceStr f.valor)).sum,
         acc.quantidade + fs.length⟩ := by
  induction fs with
  | nil => intro acc; simp
  | cons f fs ih =>
    intro acc
    rw [List.foldl_cons, ih]
    simp [valesStep, List.length_cons]
    constructor
    · ring
    · omega

/-- The per-employee coerced contributions sum to the sum of the
successfully parsed values: an unparsable string contributes nothing. -/
theorem sum_coerce_eq_sum_filterMap (fs : List Funcionario) :
    (fs.map (fun f => coerceStr f.valor)).sum =
      (fs.filterMap (fun f => parseF64 f.valor)).sum := by
  induction fs with
  | nil => simp
  | cons f fs ih =>
    simp only [coerceStr] at ih ⊢
    cases hp : parseF64 f.valor with
    | none => simp [List.filterMap_cons, hp, ih]
    | some v => simp [List.filterMap_cons, hp, ih]

/-- Closed form of the commission handler on a present employee list. -/
theorem handle_comissao_eq (empresa : Empresa) (fs : List Funcionario)
    (h : empresa.funcionarios = some fs) :
    handle_arquivo_comissao empresa =
      some ⟨comissaoHeader :: fs.map (comissaoRow empresa), fs.length,
        (fs.map (fun f => coerceStr f.valor)).sum,
        (fs.map (fun f => coerceStr (f.meta_premio.getD ""))).sum⟩ := by
  unfold handle_arquivo_comissao
  rw [h]
  show some (⟨comissaoHeader :: (fs.foldl (comissaoStep empresa) ⟨[], 0, 0, 0⟩).rows,
      (fs.foldl (comissaoStep empresa) ⟨[], 0, 0, 0⟩).quantidade,
      (fs.foldl (comissaoStep empresa) ⟨[], 0, 0, 0⟩).total_comissao,
      (fs.foldl (comissaoStep empresa) ⟨[], 0, 0, 0⟩).total_meta⟩ : ComissaoResult) = _
  rw [comissao_foldl empresa fs ⟨[], 0, 0, 0⟩]
  simp

/-- Closed form of the vale handler on a present employee list. -/
theorem handle_vales_eq (empresa : Empresa) (fs : List Funcionario)
    (h : empresa.funcionarios = some fs) :
    handle_arquivo_vales empresa =
      some ⟨valesHeader :: fs.map (valesRow empresa), fs.length,
        (fs.map (fun f => coerceStr f.valor)).sum⟩ := by
  unfold handle_arquivo_vales
  rw [h]
  show some (⟨valesHeader :: (fs.foldl (valesStep empresa) ⟨[], 0, 0⟩).rows,
      (fs.foldl (valesStep empresa) ⟨[], 0, 0⟩).quantidade,
      (fs.foldl (valesStep empresa) ⟨[], 0, 0⟩).total_vales⟩ : ValesResult) = _
  rw [vales_foldl empresa fs ⟨[], 0, 0⟩]
  simp

/-- The commission handler declines exactly the absent employee list. -/
theorem handle_comissao_eq_none_iff (empresa : Empresa) :
    handle_arquivo_comissao empresa = none ↔ empresa.funcionarios = none := by
  unfold handle_arquivo_comissao
  cases h : empresa.funcionarios with
  | none => simp
  | some fs => simp

/-- The vale handler declines exactly the absent employee list. -/
theorem handle_vales_eq_none_iff (empresa : Empresa) :
    handle_arquivo_vales empresa = none ↔ empresa.funcionarios = none := by
  unfold handle_arquivo_vales
  cases h : empresa.funcionarios with
  | none => simp
  | some fs => simp

/-! ## Lemmas about the CSV writer and reader -/

/-- Rebuilding a string from its characters is the identity. -/
theorem mk_data (s : String) : String.mk s.data = s := rfl

/-- One step of the quoted-field reader: closing quote at end of input. -/
theorem parseQuotedTail_closing (acc : List Char) :
    parseQuotedTail acc ['"'] = some (acc, []) := by
  unfold parseQuotedTail
  simp

/-- One step of the quoted-field reader: closing quote followed by more
input that does not begin with a quote. -/
theorem parseQuotedTail_closing_cons (acc : List Char) (t : Char) (ts : List Char)
    (h : t ≠ '"') :
    parseQuotedTail acc ('"' :: t :: ts) = some (acc, t :: ts) := by
  unfold parseQuotedTail
  simp [h]

/-- One step of the quoted-field reader: a doubled quote is a literal
quote. -/
theorem parseQuotedTail_dquote (acc : List Char) (rest : List Char) :
    parseQuotedTail acc ('"' :: '"' :: rest) = parseQuotedTail (acc ++ ['"']) rest := by
  conv_lhs => rw [parseQuotedTail.eq_def]
  simp

/-- One step of the quoted-field reader: an ordinary character is
accumulated. -/
theorem parseQuotedTail_other (acc : List Char) (c : Char) (h : c ≠ '"')
    (rest : List Char) :
    parseQuotedTail acc (c :: rest) = parseQuotedTail (acc ++ [c]) rest := by
  conv_lhs => rw [parseQuotedTail.eq_def]
  simp [h]

/-- The quoted-field reader undoes quote doubling: reading the escaped body
followed by the closing quote recovers the original field. -/
theorem parseQuotedTail_escape (f : List Char) :
    ∀ (tail : List Char), (∀ t ts, tail = t :: ts → t ≠ '"') →
      ∀ acc, parseQuotedTail acc (escapeQuotes f ++ '"' :: tail) = some (acc ++ f, tail) := by
  induction f with
  | nil =>
    intro tail htail acc
    simp only [escapeQuotes, List.nil_append]
    cases tail with
    | nil => rw [parseQuotedTail_closing]; simp
    | cons t ts =>
      rw [parseQuotedTail_closing_cons acc t ts (htail t ts rfl)]
      simp
  | cons c f ih =>
    intro tail htail acc
    by_cases hc : c = '"'
    · subst hc
      have hshape : escapeQuotes ('"' :: f) ++ '"' :: tail
          = '"' :: '"' :: (escapeQuotes f ++ '"' :: tail) := by
        simp [escapeQuotes]
      rw [hshape, parseQuotedTail_dquote, ih tail htail (acc ++ ['"'])]
      simp
    · have hshape : escapeQuotes (c :: f) ++ '"' :: tail
          = c :: (escapeQuotes f ++ '"' :: tail) := by
        simp [escapeQuotes, hc]
      rw [hshape, parseQuotedTail_other acc c hc, ih tail htail (acc ++ [c])]
      simp

/-- The field reader on a quoted input defers to the quoted-field reader. -/
theorem parseField_quote (rest : List Char) :
    parseField ('"' :: rest) = parseQuotedTail [] rest := by
  unfold parseField
  simp

/-- The field reader on an unquoted input takes characters up to the next
separator. -/
theorem parseField_other (c : Char) (h : c ≠ '"') (rest : List Char) :
    parseField (c :: rest) =
      some ((c :: rest).takeWhile (fun d => !(d == ';' || d == '\n')),
            (c :: rest).dropWhile (fun d => !(d == ';' || d == '\n'))) := by
  unfold parseField
  simp [h]

/-- `takeWhile`/`dropWhile` split an input whose prefix satisfies the
predicate and whose next character does not. -/
theorem takeWhile_append_all (p : Char → Bool) (l : List Char)
    (hl : ∀ c ∈ l, p c = true) (sep : Char) (hsep : p sep = false)
    (rest : List Char) :
    (l ++ sep :: rest).takeWhile p = l ∧ (l ++ sep :: rest).dropWhile p = sep :: rest := by
  induction l with
  | nil => simp [List.takeWhile_cons, List.dropWhile_cons, hsep]
  | cons c l ih =>
    have hc := hl c (List.mem_cons_self c l)
    obtain ⟨ht, hd⟩ := ih (fun d hd => hl d (List.mem_cons_of_mem c hd))
    simp only [List.cons_append, List.takeWhile_cons, List.dropWhile_cons, hc, ht, hd]
    simp

/-- Reading an encoded field recovers it exactly, leaving the separator in
place. -/
theorem parseField_enc (f : String) (sep : Char) (hsep : sep = ';' ∨ sep = '\n')
    (rest : List Char) :
    parseField (encField f ++ sep :: rest) = some (f.data, sep :: rest) := by
  have hsepq : sep ≠ '"' := by rcases hsep with rfl | rfl <;> decide
  unfold encField
  by_cases hq : needsQuote f.data
  · rw [if_pos hq]
    have hshape : ('"' :: (escapeQuotes f.data ++ ['"'])) ++ sep :: rest
        = '"' :: (escapeQuotes f.data ++ '"' :: sep :: rest) := by
      simp
    rw [hshape, parseField_quote]
    have htail : ∀ t ts, sep :: rest = t :: ts → t ≠ '"' := by
      intro t ts heq
      obtain ⟨hts, -⟩ := List.cons.inj heq
      rw [← hts]
      exact hsepq
    rw [parseQuotedTail_escape f.data (sep :: rest) htail []]
    simp
  · rw [if_neg hq]
    have hmem : ∀ c ∈ f.data, ¬(c = ';' ∨ c = '"' ∨ c = '\n' ∨ c = '\r') := by
      intro c hc habs
      apply hq
      unfold needsQuote
      rw [List.any_eq_true]
      refine ⟨c, hc, ?_⟩
      rcases habs with rfl | rfl | rfl | rfl <;> simp
    have hall : ∀ c ∈ f.data, (fun d => !(d == ';' || d == '\n')) c = true := by
      intro c hc
      have hno := hmem c hc
      have h1 : c ≠ ';' := fun hh => hno (Or.inl hh)
      have h2 : c ≠ '\n' := fun hh => hno (Or.inr (Or.inr (Or.inl hh)))
      simp [h1, h2]
    have hsepfalse : (fun d => !(d == ';' || d == '\n')) sep = false := by
      rcases hsep with rfl | rfl <;> simp
    cases hf : f.data with
    | nil =>
      simp only [List.nil_append]
      rw [parseField_other sep hsepq rest]
      obtain ⟨ht, hd⟩ := takeWhile_append_all (fun d => !(d == ';' || d == '\n'))
        [] (by simp) sep hsepfalse rest
      simp only [List.nil_append] at ht hd
      rw [ht, hd]
    | cons c0 cs0 =>
      have hmem0 : c0 ∈ f.data := by rw [hf]; exact List.mem_cons_self c0 cs0
      have hc0 : c0 ≠ '"' := fun hh => hmem c0 hmem0 (Or.inr (Or.inl hh))
      have hall0 : ∀ c ∈ c0 :: cs0, (fun d => !(d == ';' || d == '\n')) c = true := by
        rw [← hf]; exact hall
      rw [List.cons_append, parseField_other c0 hc0 (cs0 ++ sep :: rest)]
      obtain ⟨ht, hd⟩ := takeWhile_append_all (fun d => !(d == ';' || d == '\n'))
        (c0 :: cs0) hall0 sep hsepfalse rest
      rw [← List.cons_append, ht, hd]

/-- Step equation of the record reader with fuel available. -/
theorem parseRecordF_succ (fuel : Nat) (cs : List Char) :
    parseRecordF (fuel + 1) cs =
      (match parseField cs with
       | none => none
       | some (f, rest) =>
         match rest with
         | [] => none
         | c :: rest2 =>
           if c = ';' then
             match parseRecordF fuel rest2 with
             | none => none
             | some (fs, rest3) => some (String.mk f :: fs, rest3)
           else if c = '\n' then some ([String.mk f], rest2)
           else none) := rfl

/-- An encoded record is never empty. -/
theorem emitRecordChars_ne_nil (r : List String) : emitRecordChars r ≠ [] := by
  cases r with
  | nil => simp [emitRecordChars]
  | cons f r =>
    cases r with
    | nil => simp [emitRecordChars]
    | cons g rs => simp [emitRecordChars]

/-- An encoded record is at least as long as its field count. -/
theorem emitRecordChars_length (r : List String) :
    r.length ≤ (emitRecordChars r).length := by
  induction r with
  | nil => simp [emitRecordChars]
  | cons f r ih =>
    cases r with
    | nil => simp [emitRecordChars]
    | cons g rs =>
      simp only [emitRecordChars, List.length_cons, List.length_append] at ih ⊢
      omega

/-- Reading an encoded record recovers its fields exactly, leaving the rest
of the stream in place. -/
theorem parseRecordF_emit (r : List String) :
    ∀ (fuel : Nat) (rest : List Char), r ≠ [] → r.length ≤ fuel →
      parseRecordF fuel (emitRecordChars r ++ rest) = some (r, rest) := by
  induction r with
  | nil => intro fuel rest hne _; exact absurd rfl hne
  | cons f r ih =>
    intro fuel rest hne hlen
    cases r with
    | nil =>
      cases fuel with
      | zero => simp at hlen
      | succ k =>
        have hinput : emitRecordChars [f] ++ rest = encField f ++ '\n' :: rest := by
          simp [emitRecordChars]
        rw [hinput, parseRecordF_succ, parseField_enc f '\n' (Or.inr rfl) rest]
        simp [mk_data]
    | cons g rs =>
      cases fuel with
      | zero => simp at hlen
      | succ k =>
        have hinput : emitRecordChars (f :: g :: rs) ++ rest
            = encField f ++ ';' :: (emitRecordChars (g :: rs) ++ rest) := by
          simp [emitRecordChars]
        rw [hinput, parseRecordF_succ, parseField_enc f ';' (Or.inl rfl) _]
        have hrec : parseRecordF k (emitRecordChars (g :: rs) ++ rest)
            = some (g :: rs, rest) := by
          apply ih k rest (by simp)
          simp only [List.length_cons] at hlen ⊢
          omega
        simp [hrec, mk_data]

/-- The encoded stream of a record list is at least as long as the record
count. -/
theorem emitCsvChars_length (rs : List (List String)) :
    rs.length ≤ (emitCsvChars rs).length := by
  induction rs with
  | nil => simp [emitCsvChars]
  | cons r rs ih =>
    have h1 : 0 < (emitRecordChars r).length :=
      List.length_pos.mpr (emitRecordChars_ne_nil r)
    simp only [emitCsvChars, List.length_cons, List.length_append]
    omega

/-- Reading back an encoded record list recovers it exactly, provided no
record is empty (every record of this program has six or seven fields). -/
theorem parseCsvF_emit (rs : List (List String)) :
    ∀ fuel : Nat, rs.length ≤ fuel → (∀ r ∈ rs, r ≠ []) →
      parseCsvF fuel (emitCsvChars rs) = some rs := by
  induction rs with
  | nil =>
    intro fuel _ _
    cases fuel with
    | zero => rfl
    | succ k => rfl
  | cons r rs ih =>
    intro fuel hlen hne
    cases fuel with
    | zero => simp at hlen
    | succ k =>
      obtain ⟨c, cs, hshape⟩ : ∃ c cs,
          emitRecordChars r ++ emitCsvChars rs = c :: cs := by
        cases hh : emitRecordChars r with
        | nil => exact absurd hh (emitRecordChars_ne_nil r)
        | cons c cs => exact ⟨c, cs ++ emitCsvChars rs, by simp [hh]⟩
      have hstep : ∀ (c : Char) (cs : List Char), parseCsvF (k + 1) (c :: cs) =
          (match parseRecordF ((c :: cs).length + 1) (c :: cs) with
           | none => none
           | some (r0, rest) =>
             match parseCsvF k rest with
             | none => none
             | some rs0 => some (r0 :: rs0)) := fun c cs => rfl
      show parseCsvF (k + 1) (emitCsvChars (r :: rs)) = some (r :: rs)
      have hemit : emitCsvChars (r :: rs) = emitRecordChars r ++ emitCsvChars rs := rfl
      rw [hemit, hshape, hstep c cs, ← hshape]
      have hfuelR : r.length ≤ (emitRecordChars r ++ emitCsvChars rs).length + 1 := by
        have h1 := emitRecordChars_length r
        have h2 : (emitRecordChars r).length
            ≤ (emitRecordChars r ++ emitCsvChars rs).length := by
          rw [List.length_append]
          exact Nat.le_add_right _ _
        omega
      rw [parseRecordF_emit r _ (emitCsvChars rs)
        (hne r (List.mem_cons_self r rs)) hfuelR]
      have hrec : parseCsvF k (emitCsvChars rs) = some rs := by
        apply ih k ?_ (fun r' hr' => hne r' (List.mem_cons_of_mem r hr'))
        simp only [List.length_cons] at hlen
        omega
      simp [hrec]

/-- Round trip of the CSV layer: reading back an emitted file recovers the
written records, for any field contents. -/
theorem parseCsv_emitCsvString (rs : List (List String))
    (hne : ∀ r ∈ rs, r ≠ []) :
    parseCsv (emitCsvString rs) = some rs := by
  unfold parseCsv emitCsvString
  exact parseCsvF_emit rs (emitCsvChars rs).length (emitCsvChars_length rs) hne

/-! ## Lemmas about the orchestrator -/

/-- The conversion aborts as unsupported when classification fails. -/
theorem convert_unsupported_eq (stem : String) (xml : XmlElem)
    (hcl : classify stem = none) : convert stem xml = Outcome.unsupported := by
  unfold convert
  rw [hcl]

/-- Pipeline tail of a commission conversion. -/
theorem convert_comissao_eq (stem : String) (xml : XmlElem) (com : Comissao)
    (hcl : classify stem = some TipoArquivoTag.comissao)
    (hp : parseComissao xml = some com) :
    convert stem xml =
      (match handle_arquivo_comissao com.empresa with
       | none => Outcome.noData
       | some res => Outcome.written (emitCsvString res.records) res.quantidade
           res.total_comissao (some res.total_meta)) := by
  unfold convert
  rw [hcl, hp]

/-- Pipeline tail of a vale conversion. -/
theorem convert_vales_eq (stem : String) (xml : XmlElem) (v : Vales)
    (hcl : classify stem = some TipoArquivoTag.vales)
    (hp : parseVales xml = some v) :
    convert stem xml =
      (match handle_arquivo_vales v.empresa with
       | none => Outcome.noData
       | some res => Outcome.written (emitCsvString res.records) res.quantidade
           res.total_vales none) := by
  unfold convert
  rw [hcl, hp]

/-- A failing commission parse aborts the conversion. -/
theorem convert_comissao_parseError (stem : String) (xml : XmlElem)
    (hcl : classify stem = some TipoArquivoTag.comissao)
    (hp : parseComissao xml = none) : convert stem xml = Outcome.parseError := by
  unfold convert
  rw [hcl, hp]

/-- A failing vale parse aborts the conversion. -/
theorem convert_vales_parseError (stem : String) (xml : XmlElem)
    (hcl : classify stem = some TipoArquivoTag.vales)
    (hp : parseVales xml = none) : convert stem xml = Outcome.parseError := by
  unfold convert
  rw [hcl, hp]

/-! ## Concrete sample inputs (used by witnesses and counterexamples) -/

/-- Employee with a parsable amount and a bonus target. -/
def sampleFuncionario1 : Funcionario := ⟨"111", "100.50", some "10.00"⟩

/-- Employee with a parsable amount and no bonus target. -/
def sampleFuncionario2 : Funcionario := ⟨"222", "200.00", none⟩

/-- Employee whose amount text is not a decimal. -/
def sampleFuncionarioBad : Funcionario := ⟨"333", "abc", none⟩

/-- Company with two employees. -/
def sampleEmpresa : Empresa :=
  ⟨"Acme", "Acme LTDA", "00.000.000/0001-00", "01/2024",
   some [sampleFuncionario1, sampleFuncionario2]⟩

/-- Company whose only employee has an unparsable amount. -/
def sampleEmpresaBad : Empresa :=
  ⟨"Acme", "Acme LTDA", "00.000.000/0001-00", "01/2024",
   some [sampleFuncionarioBad]⟩

/-- Company with no employee list. -/
def sampleEmpresaSemFuncionarios : Empresa :=
  ⟨"Acme", "Acme LTDA", "00.000.000/0001-00", "01/2024", none⟩

/-- Leaf XML element: a named tag with text content. -/
def xmlLeaf (n t : String) : XmlElem := XmlElem.node n t []

/-- Commission-shaped XML document with a `Comissao` root and two
employees. -/
def sampleComissaoXml : XmlElem :=
  XmlElem.node "Comissao" ""
    [XmlElem.node "Empresa" ""
      [xmlLeaf "Fantasia" "Acme", xmlLeaf "Razao" "Acme LTDA",
       xmlLeaf "CNPJ" "00.000.000/0001-00", xmlLeaf "MesAno" "01/2024",
       XmlElem.node "Funcionario" ""
         [xmlLeaf "CPF" "111", xmlLeaf "Valor" "100.50",
          xmlLeaf "MetaPremio" "10.00"],
       XmlElem.node "Funcionario" ""
         [xmlLeaf "CPF" "222", xmlLeaf "Valor" "200.00"]]]

/-- Commission-shaped XML document with no `Funcionario` element. -/
def sampleComissaoXmlSemFuncionarios : XmlElem :=
  XmlElem.node "Comissao" ""
    [XmlElem.node "Empresa" ""
      [xmlLeaf "Fantasia" "Acme", xmlLeaf "Razao" "Acme LTDA",
       xmlLeaf "CNPJ" "00.000.000/0001-00", xmlLeaf "MesAno" "01/2024"]]

/-- Funcionario element without a `MetaPremio` child. -/
def sampleFuncionarioXml : XmlElem :=
  XmlElem.node "Funcionario" "" [xmlLeaf "CPF" "222", xmlLeaf "Valor" "200.00"]

/-! ## Claims -/

/-- C1: for every valid commission document with `N` employees (`N ≥ 1`),
the conversion emits a CSV with exactly `N + 1` records — the header
followed by one data row per employee in original document order — and the
reported total equals the sum of the successfully-parsed `Valor` values,
with unparsable `Valor` contributing nothing. -/
theorem c1_comissao_lines_and_total (empresa : Empresa) (fs : List Funcionario)
    (hfs : empresa.funcionarios = some fs) (hne : fs ≠ []) :
    ∃ res : ComissaoResult, handle_arquivo_comissao empresa = some res ∧
      res.records.length = fs.length + 1 ∧
      res.records = comissaoHeader :: fs.map (comissaoRow empresa) ∧
      res.total_comissao = (fs.filterMap (fun f => parseF64 f.valor)).sum := by
  refine ⟨_, handle_comissao_eq empresa fs hfs, ?_, rfl, ?_⟩
  · simp
  · exact sum_coerce_eq_sum_filterMap fs

/-- Witness for C1 at a concrete two-employee company. -/
theorem c1_witness :
    ∃ res : ComissaoResult, handle_arquivo_comissao sampleEmpresa = some res ∧
      res.records.length = [sampleFuncionario1, sampleFuncionario2].length + 1 ∧
      res.records = comissaoHeader ::
        [sampleFuncionario1, sampleFuncionario2].map (comissaoRow sampleEmpresa) ∧
      res.total_comissao = ([sampleFuncionario1, sampleFuncionario2].filterMap
        (fun f => parseF64 f.valor)).sum :=
  c1_comissao_lines_and_total sampleEmpresa [sampleFuncionario1, sampleFuncionario2]
    rfl (by decide)

/-- C2: the numeric coercion is a total function (it is a plain Lean
function): the parsed decimal value on success, and exactly `0` when the
input is absent, empty, or unparsable.  It cannot fail, panic or raise. -/
theorem c2_coerce_total :
    coerce none = 0 ∧ coerce (some "") = 0 ∧
      (∀ s : String, parseF64 s = none → coerce (some s) = 0) ∧
      (∀ (s : String) (v : Rat), parseF64 s = some v → coerce (some s) = v) := by
  refine ⟨by decide, by decide, ?_, ?_⟩
  · intro s h
    show (parseF64 s).getD 0 = 0
    rw [h]
    rfl
  · intro s v h
    show (parseF64 s).getD 0 = v
    rw [h]
    rfl

/-- Witness for C2 at an unparsable and a parsable input. -/
theorem c2_witness :
    coerce (some "abc") = 0 ∧ coerce (some "100.50") = mkRat 201 2 :=
  ⟨c2_coerce_total.2.2.1 "abc" (by decide),
   c2_coerce_total.2.2.2 "100.50" (mkRat 201 2) (by decide)⟩

/-- C3: an employee whose `Valor` text is not a valid decimal still yields a
row whose `Valor` column carries the text verbatim, contributes exactly `0`
to the aggregate total, and never turns the conversion into an error. -/
theorem c3_unparsable_valor (empresa : Empresa) (fs : List Funcionario)
    (f : Funcionario) (hfs : empresa.funcionarios = some fs) (hmem : f ∈ fs)
    (hbad : parseF64 f.valor = none) :
    ∃ res : ComissaoResult, handle_arquivo_comissao empresa = some res ∧
      res.records = comissaoHeader :: fs.map (comissaoRow empresa) ∧
      (comissaoRow empresa f)[5]? = some f.valor ∧
      coerceStr f.valor = 0 ∧
      res.total_comissao = (fs.filterMap (fun g => parseF64 g.valor)).sum := by
  refine ⟨_, handle_comissao_eq empresa fs hfs, rfl, rfl, ?_,
    sum_coerce_eq_sum_filterMap fs⟩
  show (parseF64 f.valor).getD 0 = 0
  rw [hbad]
  rfl

/-- Witness for C3 at a company whose employee's amount is `"abc"`. -/
theorem c3_witness :
    ∃ res : ComissaoResult, handle_arquivo_comissao sampleEmpresaBad = some res ∧
      res.records = comissaoHeader ::
        [sampleFuncionarioBad].map (comissaoRow sampleEmpresaBad) ∧
      (comissaoRow sampleEmpresaBad sampleFuncionarioBad)[5]? =
        some sampleFuncionarioBad.valor ∧
      coerceStr sampleFuncionarioBad.valor = 0 ∧
      res.total_comissao =
        ([sampleFuncionarioBad].filterMap (fun g => parseF64 g.valor)).sum :=
  c3_unparsable_valor sampleEmpresaBad [sampleFuncionarioBad] sampleFuncionarioBad
    rfl (by decide) (by decide)

/-- C4: a parsed document of either variant whose employee list is absent or
empty converts to the distinct `noData` outcome — zero rows, and no output
file, since only the `written` outcome creates one; in particular no
header-only file.  (An empty-but-present list is unreachable from a parse,
and the absent list reaches the handlers' no-data branch.) -/
theorem c4_no_employees_no_file (stem : String) (xml : XmlElem) (emp : Empresa)
    (hvar : (classify stem = some TipoArquivoTag.comissao ∧
              parseComissao xml = some ⟨emp⟩) ∨
            (classify stem = some TipoArquivoTag.vales ∧
              parseVales xml = some ⟨emp⟩))
    (hemp : emp.funcionarios = none ∨ emp.funcionarios = some []) :
    convert stem xml = Outcome.noData := by
  have hnone : emp.funcionarios = none := by
    rcases hemp with h | h
    · exact h
    · exfalso
      rcases hvar with ⟨-, hp⟩ | ⟨-, hp⟩
      · obtain ⟨e, -, hpe⟩ := (parseComissao_eq_some_iff xml ⟨emp⟩).mp hp
        exact parseEmpresa_no_empty_some e emp hpe h
      · obtain ⟨e, -, hpe⟩ := (parseVales_eq_some_iff xml ⟨emp⟩).mp hp
        exact parseEmpresa_no_empty_some e emp hpe h
  rcases hvar with ⟨hcl, hp⟩ | ⟨hcl, hp⟩
  · rw [convert_comissao_eq stem xml ⟨emp⟩ hcl hp,
      (handle_comissao_eq_none_iff emp).mpr hnone]
  · rw [convert_vales_eq stem xml ⟨emp⟩ hcl hp,
      (handle_vales_eq_none_iff emp).mpr hnone]

/-- Witness for C4 at a commission document with no `Funcionario` element. -/
theorem c4_witness :
    convert "comissao_jan2024" sampleComissaoXmlSemFuncionarios = Outcome.noData :=
  c4_no_employees_no_file "comissao_jan2024" sampleComissaoXmlSemFuncionarios
    sampleEmpresaSemFuncionarios (Or.inl ⟨by decide, by decide⟩) (Or.inl rfl)

/-- C5: classification splits the stem at the first underscore and matches
the candidate — the whole stem when no underscore exists — case-sensitively
against the two literals, exactly as the spec words it; any other candidate
is unsupported and aborts the conversion attempt. -/
theorem c5_classifier_first_underscore (stem : String) :
    classify stem = classifySpec stem ∧
      (∀ xml : XmlElem, classify stem = none →
        convert stem xml = Outcome.unsupported) := by
  constructor
  · unfold classify classifySpec
    rw [rustSplit_head '_' stem.data]
  · intro xml hcl
    exact convert_unsupported_eq stem xml hcl

/-- Witness for C5: an unsupported stem aborts the conversion. -/
theorem c5_witness :
    convert "foo_2024" sampleComissaoXml = Outcome.unsupported :=
  (c5_classifier_first_underscore "foo_2024").2 sampleComissaoXml (by decide)

/-- Counterexample to C6 as stated: the bare stem `"comissao"`, which starts
with neither `"comissao_"` nor `"vales_"`, is accepted by the classifier
rather than rejected (`split('_').next()` yields the whole stem when no
underscore exists). -/
theorem c6_counterexample :
    classify "comissao" = some TipoArquivoTag.comissao ∧
      ¬("comissao_".data <+: "comissao".data ∨
        "vales_".data <+: "comissao".data) := by
  decide

/-- C6 (amended): classification accepts a stem exactly when it starts with
`"comissao_"` or `"vales_"` or is the bare literal `"comissao"` or
`"vales"`; every other stem is rejected as unsupported, aborting the
conversion. -/
theorem c6_amended_classification (stem : String) :
    ((classify stem).isSome = true ↔
      stem = "comissao" ∨ stem = "vales" ∨
      "comissao_".data <+: stem.data ∨ "vales_".data <+: stem.data) ∧
    (∀ xml : XmlElem, classify stem = none →
      convert stem xml = Outcome.unsupported) :=
  ⟨classify_isSome_iff stem, fun xml h => convert_unsupported_eq stem xml h⟩

/-- Witness for the amended C6: a rejected stem aborts the conversion. -/
theorem c6_amended_witness :
    convert "empresa_2024" sampleComissaoXml = Outcome.unsupported :=
  (c6_amended_classification "empresa_2024").2 sampleComissaoXml (by decide)

/-- Counterexample to C7 as stated: a file whose stem classifies as Vale but
whose bytes are commission-shaped XML with a `Comissao` root does NOT fail
to parse — `serde_xml_rs` never compares the root element's name with the
target struct, and both variants share one field layout — so the document is
accepted and converted, and an output file is written. -/
theorem c7_counterexample :
    classify "vales_2024" = some TipoArquivoTag.vales ∧
      (parseVales sampleComissaoXml).isSome = true ∧
      Outcome.isWritten (convert "vales_2024" sampleComissaoXml) = true := by
  decide

/-- C7 (amended): classification never inspects XML content — a Vale-named
file is processed as a Vale regardless of its bytes; a commission-shaped
document parses successfully under the Vale schema (same payload layout,
root name unchecked) and the conversion proceeds rather than failing with a
parse error; it is never reclassified. -/
theorem c7_amended_vale_accepts_comissao (stem : String) (xml : XmlElem)
    (emp : Empresa) (hcl : classify stem = some TipoArquivoTag.vales)
    (hp : parseComissao xml = some ⟨emp⟩) :
    parseVales xml = some ⟨emp⟩ ∧
      convert stem xml ≠ Outcome.parseError ∧
      convert stem xml ≠ Outcome.unsupported := by
  have hv := parseVales_of_parseComissao xml emp hp
  refine ⟨hv, ?_, ?_⟩
  · rw [convert_vales_eq stem xml ⟨emp⟩ hcl hv]
    cases hh : handle_arquivo_vales (Vales.mk emp).empresa with
    | none => intro habs; exact Outcome.noConfusion habs
    | some res => intro habs; exact Outcome.noConfusion habs
  · rw [convert_vales_eq stem xml ⟨emp⟩ hcl hv]
    cases hh : handle_arquivo_vales (Vales.mk emp).empresa with
    | none => intro habs; exact Outcome.noConfusion habs
    | some res => intro habs; exact Outcome.noConfusion habs

/-- Witness for the amended C7 at the concrete misnamed document. -/
theorem c7_amended_witness :
    parseVales sampleComissaoXml = some (Vales.mk sampleEmpresa) ∧
      convert "vales_2024" sampleComissaoXml ≠ Outcome.parseError ∧
      convert "vales_2024" sampleComissaoXml ≠ Outcome.unsupported :=
  c7_amended_vale_accepts_comissao "vales_2024" sampleComissaoXml sampleEmpresa
    (by decide) (by decide)

/-- C8: round trip — for a valid document of either variant with a nonempty
employee list, emitting the CSV and re-parsing it recovers exactly the
`(CPF, Valor-text)` pairs of the employee sequence, in order. -/
theorem c8_roundtrip (empresa : Empresa) (fs : List Funcionario)
    (hfs : empresa.funcionarios = some fs) (hne : fs ≠ []) :
    (∃ res : ComissaoResult, handle_arquivo_comissao empresa = some res ∧
      parseCsv (emitCsvString res.records) = some res.records ∧
      (res.records.drop 1).map (fun r => (r[4]?, r[5]?)) =
        fs.map (fun f => (some f.cpf, some f.valor))) ∧
    (∃ res : ValesResult, handle_arquivo_vales empresa = some res ∧
      parseCsv (emitCsvString res.records) = some res.records ∧
      (res.records.drop 1).map (fun r => (r[4]?, r[5]?)) =
        fs.map (fun f => (some f.cpf, some f.valor))) := by
  constructor
  · refine ⟨_, handle_comissao_eq empresa fs hfs, ?_, ?_⟩
    · apply parseCsv_emitCsvString
      intro r hr
      rcases List.mem_cons.mp hr with rfl | hr2
      · simp [comissaoHeader]
      · obtain ⟨f, -, rfl⟩ := List.mem_map.mp hr2
        simp [comissaoRow]
    · show ((comissaoHeader :: fs.map (comissaoRow empresa)).drop 1).map
          (fun r => (r[4]?, r[5]?)) = fs.map (fun f => (some f.cpf, some f.valor))
      simp only [List.drop_succ_cons, List.drop_zero, List.map_map]
      rfl
  · refine ⟨_, handle_vales_eq empresa fs hfs, ?_, ?_⟩
    · apply parseCsv_emitCsvString
      intro r hr
      rcases List.mem_cons.mp hr with rfl | hr2
      · simp [valesHeader]
      · obtain ⟨f, -, rfl⟩ := List.mem_map.mp hr2
        simp [valesRow]
    · show ((valesHeader :: fs.map (valesRow empresa)).drop 1).map
          (fun r => (r[4]?, r[5]?)) = fs.map (fun f => (some f.cpf, some f.valor))
      simp only [List.drop_succ_cons, List.drop_zero, List.map_map]
      rfl

/-- Witness for C8 at the concrete two-employee company. -/
theorem c8_witness :
    (∃ res : ComissaoResult, handle_arquivo_comissao sampleEmpresa = some res ∧
      parseCsv (emitCsvString res.records) = some res.records ∧
      (res.records.drop 1).map (fun r => (r[4]?, r[5]?)) =
        [sampleFuncionario1, sampleFuncionario2].map
          (fun f => (some f.cpf, some f.valor))) ∧
    (∃ res : ValesResult, handle_arquivo_vales sampleEmpresa = some res ∧
      parseCsv (emitCsvString res.records) = some res.records ∧
      (res.records.drop 1).map (fun r => (r[4]?, r[5]?)) =
        [sampleFuncionario1, sampleFuncionario2].map
          (fun f => (some f.cpf, some f.valor))) :=
  c8_roundtrip sampleEmpresa [sampleFuncionario1, sampleFuncionario2] rfl (by decide)

/-- C9: the four company fields and the two employee fields are required —
absence of any of them makes the parse fail rather than fall back to a
default — while `MetaPremio` is optional and defaults to absent. -/
theorem c9_required_fields (e f : XmlElem) :
    (parseEmpresa e = none ↔
      childText e "Fantasia" = none ∨ childText e "Razao" = none ∨
      childText e "CNPJ" = none ∨ childText e "MesAno" = none ∨
      ∃ g ∈ funcionarioChildren e,
        childText g "CPF" = none ∨ childText g "Valor" = none) ∧
    (parseFuncionario f = none ↔
      childText f "CPF" = none ∨ childText f "Valor" = none) ∧
    (∀ fn : Funcionario, parseFuncionario f = some fn →
      fn.meta_premio = childText f "MetaPremio") :=
  ⟨parseEmpresa_eq_none_iff e, parseFuncionario_eq_none_iff f,
   fun fn h => parseFuncionario_meta f fn h⟩

/-- Witness for C9: a funcionario element without `MetaPremio` parses with
an absent bonus field. -/
theorem c9_witness :
    (Funcionario.mk "222" "200.00" none).meta_premio =
      childText sampleFuncionarioXml "MetaPremio" :=
  (c9_required_fields sampleFuncionarioXml sampleFuncionarioXml).2.2
    ⟨"222", "200.00", none⟩ (by decide)

/-- C10: the destination file exists exactly when classification succeeded,
the variant parse succeeded, and the parsed company carries a nonempty
employee list; when classification or parsing aborts the attempt, no output
file is created. -/
theorem c10_file_only_on_success (stem : String) (xml : XmlElem) :
    (∃ (csv : String) (q : Nat) (tp : Rat) (ts : Option Rat),
        convert stem xml = Outcome.written csv q tp ts) ↔
      (∃ (tag : TipoArquivoTag) (emp : Empresa) (fs : List Funcionario),
        classify stem = some tag ∧ docParse tag xml = some emp ∧
        emp.funcionarios = some fs ∧ fs ≠ []) := by
  cases hcl : classify stem with
  | none =>
    constructor
    · rintro ⟨csv, q, tp, ts, habs⟩
      rw [convert_unsupported_eq stem xml hcl] at habs
      exact Outcome.noConfusion habs
    · rintro ⟨tag, emp, fs, htag, -, -, -⟩
      exact Option.noConfusion htag
  | some tag =>
    cases tag with
    | comissao =>
      cases hp : parseComissao xml with
      | none =>
        constructor
        · rintro ⟨csv, q, tp, ts, habs⟩
          rw [convert_comissao_parseError stem xml hcl hp] at habs
          exact Outcome.noConfusion habs
        · rintro ⟨tag', emp, fs, htag', hdoc, -, -⟩
          have ht : TipoArquivoTag.comissao = tag' := Option.some.inj htag'
          rw [← ht] at hdoc
          simp only [docParse, hp, Option.map_none'] at hdoc
          exact Option.noConfusion hdoc
      | some com =>
        cases hh : handle_arquivo_comissao com.empresa with
        | none =>
          constructor
          · rintro ⟨csv, q, tp, ts, habs⟩
            rw [convert_comissao_eq stem xml com hcl hp, hh] at habs
            exact Outcome.noConfusion habs
          · rintro ⟨tag', emp, fs, htag', hdoc, hfs, -⟩
            have ht : TipoArquivoTag.comissao = tag' := Option.some.inj htag'
            rw [← ht] at hdoc
            simp only [docParse, hp, Option.map_some', Option.some.injEq] at hdoc
            rw [← hdoc] at hfs
            rw [handle_comissao_eq com.empresa fs hfs] at hh
            exact Option.noConfusion hh
        | some res =>
          constructor
          · rintro -
            refine ⟨TipoArquivoTag.comissao, com.empresa, ?_⟩
            cases hfs : com.empresa.funcionarios with
            | none =>
              rw [(handle_comissao_eq_none_iff com.empresa).mpr hfs] at hh
              exact Option.noConfusion hh
            | some fs =>
              obtain ⟨e, -, hpe⟩ := (parseComissao_eq_some_iff xml com).mp hp
              refine ⟨fs, rfl, by simp [docParse, hp], rfl, ?_⟩
              intro hnil
              rw [hnil] at hfs
              exact parseEmpresa_no_empty_some e com.empresa hpe hfs
          · rintro -
            exact ⟨emitCsvString res.records, res.quantidade, res.total_comissao,
              some res.total_meta,
              by rw [convert_comissao_eq stem xml com hcl hp, hh]⟩
    | vales =>
      cases hp : parseVales xml with
      | none =>
        constructor
        · rintro ⟨csv, q, tp, ts, habs⟩
          rw [convert_vales_parseError stem xml hcl hp] at habs
          exact Outcome.noConfusion habs
        · rintro ⟨tag', emp, fs, htag', hdoc, -, -⟩
          have ht : TipoArquivoTag.vales = tag' := Option.some.inj htag'
          rw [← ht] at hdoc
          simp only [docParse, hp, Option.map_none'] at hdoc
          exact Option.noConfusion hdoc
      | some v =>
        cases hh : handle_arquivo_vales v.empresa with
        | none =>
          constructor
          · rintro ⟨csv, q, tp, ts, habs⟩
            rw [convert_vales_eq stem xml v hcl hp, hh] at habs
            exact Outcome.noConfusion habs
          · rintro ⟨tag', emp, fs, htag', hdoc, hfs, -⟩
            have ht : TipoArquivoTag.vales = tag' := Option.some.inj htag'
            rw [← ht] at hdoc
            simp only [docParse, hp, Option.map_some', Option.some.injEq] at hdoc
            rw [← hdoc] at hfs
            rw [handle_vales_eq v.empresa fs hfs] at hh
            exact Option.noConfusion hh
        | some res =>
          constructor
          · rintro -
            refine ⟨TipoArquivoTag.vales, v.empresa, ?_⟩
            cases hfs : v.empresa.funcionarios with
            | none =>
              rw [(handle_vales_eq_none_iff v.empresa).mpr hfs] at hh
              exact Option.noConfusion hh
            | some fs =>
              obtain ⟨e, -, hpe⟩ := (parseVales_eq_some_iff xml v).mp hp
              refine ⟨fs, rfl, by simp [docParse, hp], rfl, ?_⟩
              intro hnil
              rw [hnil] at hfs
              exact parseEmpresa_no_empty_some e v.empresa hpe hfs
          · rintro -
            exact ⟨emitCsvString res.records, res.quantidade, res.total_vales,
              none,
              by rw [convert_vales_eq stem xml v hcl hp, hh]⟩
